import Mathlib

/-!
A shallow embedding of the task store implemented in `task_manage.py`
(class `TaskManager`), together with proofs about its operations.

The SQLite table

  CREATE TABLE tasks (
    id INTEGER PRIMARY KEY AUTOINCREMENT,
    description TEXT NOT NULL,
    deadline TEXT,
    status TEXT CHECK(status IN ('Pending', 'Completed')) NOT NULL,
    priority TEXT CHECK(priority IN ('high', 'medium', 'low')))

is modelled as a list of rows plus the `AUTOINCREMENT` sequence value.
Text comparison (`<=`, `ORDER BY`) is SQLite's binary collation, modelled
character-wise; `LIKE` is modelled with its ASCII case folding and its
`%` / `_` wildcards.
-/

namespace TaskStore

/-- A row of the `tasks` table, fields in `SELECT *` order:
`id, description, deadline, status, priority`. `deadline` is nullable. -/
structure Task where
  id : Int
  description : String
  deadline : Option String
  status : String
  priority : String
  deriving DecidableEq

/-- The persistent store: the rows of the `tasks` table plus the
`AUTOINCREMENT` sequence (the next id to assign; SQLite `AUTOINCREMENT`
never reuses an id after deletion). -/
structure TaskState where
  tasks : List Task
  nextId : Int
  deriving DecidableEq

/-- The store right after `__init_db` on a fresh database file. -/
def initState : TaskState := ⟨[], 1⟩

/-- `SELECT * FROM tasks WHERE id = ?` followed by `fetchone()` being truthy:
a row with this id exists. -/
def present (i : Int) (st : TaskState) : Bool :=
  st.tasks.any (fun t => t.id == i)

/-- Value of a nonempty all-digit character run. -/
def digitsVal (ds : List Char) : Nat :=
  ds.foldl (fun a c => a * 10 + (c.toNat - 48)) 0

/-- A nonempty all-digit run parsed to a natural number, else `none`. -/
def parseDigits (ds : List Char) : Option Nat :=
  if !ds.isEmpty && ds.all Char.isDigit then some (digitsVal ds) else none

/-- ASCII whitespace, as stripped by Python `int` before parsing. -/
def isSpaceCh (c : Char) : Bool :=
  c == ' ' || c == '\t' || c == '\n' || c == '\r' ||
    c == Char.ofNat 11 || c == Char.ofNat 12

/-- Strip leading and trailing whitespace from a character list. -/
def trimChars (l : List Char) : List Char :=
  ((l.dropWhile isSpaceCh).reverse.dropWhile isSpaceCh).reverse

/-- Model of Python `int(s)` on a string: optional surrounding whitespace,
optional sign, decimal digits; a `ValueError` is `none`.
(Digit-group underscores, an exotic corner of `int`, are not modelled.) -/
def parsePyInt (s : String) : Option Int :=
  match trimChars s.data with
  | '-' :: ds => (parseDigits ds).map (fun n => -(n : Int))
  | '+' :: ds => (parseDigits ds).map (fun n => (n : Int))
  | ds => (parseDigits ds).map (fun n => (n : Int))

/-- The list comprehension `[int(x) for x in ids]`: all ids parsed, or a
`ValueError` (`none`) as soon as any element fails to parse. -/
def parseAll : List String → Option (List Int)
  | [] => some []
  | s :: rest =>
    match parsePyInt s, parseAll rest with
    | some i, some l => some (i :: l)
    | _, _ => none

/-- `add_task`: three validation checks, then
`INSERT INTO tasks (description, deadline, status, priority)`, which assigns
the next sequence id. Returns the new store and whether a row was inserted. -/
def addTask (st : TaskState) (description : String) (deadline : Option String)
    (priority : String) (status : String) : TaskState × Bool :=
  if description == "" then (st, false)
  else if !(["high", "medium", "low"].contains priority) then (st, false)
  else if !(["Pending", "Completed"].contains status) then (st, false)
  else (⟨st.tasks ++ [⟨st.nextId, description, deadline, status, priority⟩],
         st.nextId + 1⟩, true)

/-- `UPDATE tasks SET ... WHERE id = ?`: rewrite every row carrying the id. -/
def mapWhere (st : TaskState) (i : Int) (f : Task → Task) : TaskState :=
  ⟨st.tasks.map (fun t => if t.id == i then f t else t), st.nextId⟩

/-- `DELETE FROM tasks WHERE id = ?`. -/
def removeId (st : TaskState) (i : Int) : TaskState :=
  ⟨st.tasks.filter (fun t => !(t.id == i)), st.nextId⟩

/-- Per-id outcome of a batch `update_task` / `delete_task` call, in input
order: the skip message for a missing id, or the row action performed. -/
inductive Outcome where
  | updated (i : Int)
  | deleted (i : Int)
  | missing (i : Int)
  deriving DecidableEq

/-- Overall report of a batch call: the `ValueError` rejection before any
database access, an uncaught `IntegrityError` (rolling back the uncommitted
transaction), or completion with the per-id outcomes. -/
inductive BatchReport where
  | invalidIds
  | crashed
  | ok (outs : List Outcome)
  deriving DecidableEq

/-- The loop of `delete_task`: per id, check presence against the current
(partially deleted) table, then delete or skip. -/
def delGo : TaskState → List Int → TaskState × List Outcome
  | st, [] => (st, [])
  | st, i :: rest =>
    if present i st then
      let p := delGo (removeId st i) rest
      (p.1, Outcome.deleted i :: p.2)
    else
      let p := delGo st rest
      (p.1, Outcome.missing i :: p.2)

/-- `delete_task`: parse all ids first (any failure rejects the whole call
before the database is touched), then the per-id loop, then commit. -/
def deleteTask (st : TaskState) (ids : List String) : TaskState × BatchReport :=
  match parseAll ids with
  | none => (st, BatchReport.invalidIds)
  | some tids =>
    let p := delGo st tids
    (p.1, BatchReport.ok p.2)

/-- The optional field arguments of `update_task` (Python default `None`). -/
structure UpdateArgs where
  description : Option String
  status : Option String
  priority : Option String
  deadline : Option String
  deriving DecidableEq

/-- Python truthiness of an optional string (`None` and `""` are falsy). -/
def truthy : Option String → Bool
  | none => false
  | some s => !(s == "")

/-- New value of a text field under `if arg: UPDATE ... SET field = arg`. -/
def fieldVal (arg : Option String) (old : String) : String :=
  match arg with
  | some s => if s == "" then old else s
  | none => old

/-- Same, for the nullable `deadline` column. -/
def fieldValO (arg : Option String) (old : Option String) : Option String :=
  match arg with
  | some s => if s == "" then old else some s
  | none => old

/-- The status text written by one loop iteration of `update_task`, given the
current value of the loop's `status` variable:
`status = "Pending" if status == "1" else "Completed"`. -/
def statusWritten (stat : Option String) : String :=
  if stat == some "1" then "Pending" else "Completed"

/-- Is the priority argument a value allowed by the schema CHECK constraint. -/
def prioOk : Option String → Bool
  | some s => ["high", "medium", "low"].contains s
  | none => false

/-- One present row after one iteration of `update_task`'s loop: the four
conditional `UPDATE` statements, with `stat` the current value of the
loop-mutated `status` variable. -/
def applyIter (args : UpdateArgs) (stat : Option String) (t : Task) : Task :=
  ⟨t.id,
   fieldVal args.description t.description,
   fieldValO args.deadline t.deadline,
   if truthy stat then statusWritten stat else t.status,
   fieldVal args.priority t.priority⟩

/-- The loop of `update_task`. The `status` variable is threaded explicitly
because the source reassigns it on every iteration that reaches a present
row. Writing a `priority` outside the schema CHECK constraint raises
`sqlite3.IntegrityError` (modelled as `none`); the exception propagates, so
`commit` is never reached and the transaction is rolled back. -/
def updGo (args : UpdateArgs) :
    TaskState → Option String → List Int → Option (TaskState × List Outcome)
  | st, _, [] => some (st, [])
  | st, stat, i :: rest =>
    if present i st then
      if truthy args.priority && !(prioOk args.priority) then none
      else
        (updGo args (mapWhere st i (applyIter args stat))
            (if truthy stat then some (statusWritten stat) else stat)
            rest).map
          (fun p => (p.1, Outcome.updated i :: p.2))
    else
      (updGo args st stat rest).map (fun p => (p.1, Outcome.missing i :: p.2))

/-- `update_task`: parse all ids first (any failure rejects the whole call
before the database is touched), then the per-id loop seeded with the
caller's `status` argument, then commit. -/
def updateTask (st : TaskState) (ids : List String) (args : UpdateArgs) :
    TaskState × BatchReport :=
  match parseAll ids with
  | none => (st, BatchReport.invalidIds)
  | some tids =>
    match updGo args st args.status tids with
    | none => (st, BatchReport.crashed)
    | some p => (p.1, BatchReport.ok p.2)

/-- ASCII lower-casing as performed by SQLite's `LIKE` (letters A–Z only). -/
def foldC (c : Char) : Char :=
  if 'A' ≤ c && c ≤ 'Z' then Char.ofNat (c.toNat + 32) else c

/-- SQLite `LIKE` matching (no ESCAPE clause): `%` matches any sequence,
`_` matches exactly one character, any other pattern character matches
ASCII-case-insensitively. -/
def likeMatch : List Char → List Char → Bool
  | [], [] => true
  | [], _ :: _ => false
  | '%' :: ps, [] => likeMatch ps []
  | '%' :: ps, d :: ss => likeMatch ps (d :: ss) || likeMatch ('%' :: ps) ss
  | '_' :: _, [] => false
  | '_' :: ps, _ :: ss => likeMatch ps ss
  | _ :: _, [] => false
  | c :: ps, d :: ss => foldC c == foldC d && likeMatch ps ss
termination_by p s => (p.length, s.length)

/-- Result of `search_tasks`: rejection of an empty keyword, or the matching
rows (an empty list being the "No matching tasks found" outcome). -/
inductive SearchRes where
  | rejected
  | results (l : List Task)
  deriving DecidableEq

/-- `search_tasks`: reject an empty keyword, otherwise
`SELECT * FROM tasks WHERE description LIKE '%keyword%'`. -/
def searchTasks (st : TaskState) (keyword : String) : SearchRes :=
  if keyword == "" then SearchRes.rejected
  else SearchRes.results (st.tasks.filter
    (fun t => likeMatch ('%' :: (keyword.data ++ ['%'])) t.description.data))

/-- `ORDER BY CASE priority WHEN 'high' THEN 1 WHEN 'medium' THEN 2
WHEN 'low' THEN 3 END`; the CASE yields NULL on any other value. -/
def prioRank : String → Option Nat
  | "high" => some 1
  | "medium" => some 2
  | "low" => some 3
  | _ => none

/-- SQLite ascending order on a nullable integer: NULLs sort first. -/
def optNatLe : Option Nat → Option Nat → Bool
  | none, _ => true
  | some _, none => false
  | some a, some b => decide (a ≤ b)

/-- SQLite binary (memcmp) text comparison, `a <= b`, character-wise. -/
def strLe : List Char → List Char → Bool
  | [], _ => true
  | _ :: _, [] => false
  | a :: as, b :: bs => if a < b then true else if b < a then false else strLe as bs

/-- SQLite ascending order on the nullable `deadline` column: NULLs first,
then binary text order. -/
def optStrLe : Option String → Option String → Bool
  | none, _ => true
  | some _, none => false
  | some a, some b => strLe a.data b.data

/-- `view_tasks`: all rows, optionally ordered; `none` is the
"No tasks available." outcome (the source then returns `None`). -/
def viewTasks (st : TaskState) (orderBy : Option String) : Option (List Task) :=
  let ts :=
    if orderBy == some "deadline" then
      st.tasks.mergeSort (fun a b => optStrLe a.deadline b.deadline)
    else if orderBy == some "priority" then
      st.tasks.mergeSort (fun a b => optNatLe (prioRank a.priority) (prioRank b.priority))
    else st.tasks
  if ts.isEmpty then none else some ts

/-- A wall-clock timestamp as produced by `datetime.now()`, to second
precision (the precision used by the `strftime` format in the source). -/
structure DateTime where
  year : Nat
  month : Nat
  day : Nat
  hour : Nat
  minute : Nat
  second : Nat
  deriving DecidableEq

/-- Gregorian leap year. -/
def leapYear (y : Nat) : Bool :=
  (y % 4 == 0 && y % 100 != 0) || y % 400 == 0

/-- Days in a month of the Gregorian calendar. -/
def daysInMonth (y m : Nat) : Nat :=
  if m == 2 then (if leapYear y then 29 else 28)
  else if m == 4 || m == 6 || m == 9 || m == 11 then 30
  else 31

/-- `now + timedelta(hours=24)` on a naive datetime: exactly one calendar
day, the time of day unchanged. -/
def addDay (d : DateTime) : DateTime :=
  if d.day + 1 ≤ daysInMonth d.year d.month then
    ⟨d.year, d.month, d.day + 1, d.hour, d.minute, d.second⟩
  else if d.month + 1 ≤ 12 then
    ⟨d.year, d.month + 1, 1, d.hour, d.minute, d.second⟩
  else
    ⟨d.year + 1, 1, 1, d.hour, d.minute, d.second⟩

/-- A decimal digit character. -/
def digitCh : Nat → Char
  | 0 => '0'
  | 1 => '1'
  | 2 => '2'
  | 3 => '3'
  | 4 => '4'
  | 5 => '5'
  | 6 => '6'
  | 7 => '7'
  | 8 => '8'
  | _ => '9'

/-- Two-digit zero-padded field (`%m`, `%d`, `%H`, `%M`, `%S`). -/
def pad2 (n : Nat) : List Char := [digitCh (n / 10), digitCh (n % 10)]

/-- Four-digit year field (`%Y`, years 1000–9999). -/
def pad4 (n : Nat) : List Char :=
  [digitCh (n / 1000), digitCh (n / 100 % 10), digitCh (n / 10 % 10), digitCh (n % 10)]

/-- `strftime("%Y-%m-%d %H:%M:%S")`. -/
def fmtDT (d : DateTime) : String :=
  String.mk (pad4 d.year ++ '-' :: pad2 d.month ++ '-' :: pad2 d.day ++
    ' ' :: pad2 d.hour ++ ':' :: pad2 d.minute ++ ':' :: pad2 d.second)

/-- `due_soon_tasks`, with the ambient `datetime.now()` passed in: computes
the cutoff `now + 24h` as text and runs
`SELECT * FROM tasks WHERE deadline <= ? AND status = 'Pending'`
(a NULL `deadline` makes the comparison NULL, hence not selected).
Returns the reported cutoff together with the selected rows. -/
def dueSoonTasks (st : TaskState) (now : DateTime) : String × List Task :=
  let upcoming := fmtDT (addDay now)
  (upcoming, st.tasks.filter (fun t =>
    (match t.deadline with
     | some d => strLe d.data upcoming.data
     | none => false) && t.status == "Pending"))

/-- A store operation, for reasoning about operation sequences. -/
inductive Op where
  | add (description : String) (deadline : Option String) (priority status : String)
  | update (ids : List String) (args : UpdateArgs)
  | delete (ids : List String)

/-- The store state after one operation. -/
def stepOp (st : TaskState) : Op → TaskState
  | Op.add d dl p s => (addTask st d dl p s).1
  | Op.update ids args => (updateTask st ids args).1
  | Op.delete ids => (deleteTask st ids).1

/-- The ids assigned by one operation (only a successful `add` assigns one). -/
def assignedBy (st : TaskState) : Op → List Int
  | Op.add d dl p s => if (addTask st d dl p s).2 then [st.nextId] else []
  | _ => []

/-- All ids assigned across a sequence of operations, in order. -/
def assignedIds : TaskState → List Op → List Int
  | _, [] => []
  | st, op :: ops => assignedBy st op ++ assignedIds (stepOp st op) ops

/-- Is the first character list a prefix of the second (exact characters). -/
def isPrefOf : List Char → List Char → Bool
  | [], _ => true
  | _ :: _, [] => false
  | a :: as, b :: bs => a == b && isPrefOf as bs

/-- Does the needle occur contiguously in the haystack (exact characters). -/
def containsList (needle : List Char) : List Char → Bool
  | [] => needle.isEmpty
  | b :: bs => isPrefOf needle (b :: bs) || containsList needle bs

/-- Case-sensitive substring test, the spec's reading of `search`'s match. -/
def containsSub (needle hay : String) : Bool :=
  containsList needle.data hay.data

/-- Claim-side summary of what one update applies to a present row when the
supplied status is not the string "1" (that value is settled separately):
supplied fields overwrite, absent or empty fields are kept, the id is kept,
and a supplied status is stored as Completed. -/
def applySpec (args : UpdateArgs) (t : Task) : Task :=
  ⟨t.id,
   fieldVal args.description t.description,
   fieldValO args.deadline t.deadline,
   if truthy args.status then "Completed" else t.status,
   fieldVal args.priority t.priority⟩

/-- The spec's fixed priority rank: high before medium before low. -/
def rankSpec : String → Nat
  | "high" => 1
  | "medium" => 2
  | "low" => 3
  | _ => 4

/-- Does the keyword avoid the `LIKE` wildcard characters. -/
def noWild (kw : String) : Bool :=
  kw.data.all (fun c => !(c == '%' || c == '_'))

/-- Claim-side due-soon deadline test: the stored deadline text must be
`<=` the cutoff, a date-only (10-character) deadline comparing as that
date at midnight. -/
def dueSoonSpecPred (dl : Option String) (cutoff : String) : Bool :=
  match dl with
  | none => false
  | some d =>
    if d.data.length == 10 then
      strLe (d.data ++ ' ' :: "00:00:00".data) cutoff.data
    else
      strLe d.data cutoff.data

/-! ### Concrete fixture stores used by witnesses and counterexamples -/

/-- A store holding one Pending task with id 1. -/
def exOnePending : TaskState :=
  ⟨[⟨1, "a", some "2024-01-05", "Pending", "medium"⟩], 2⟩

/-- A store holding two Pending tasks with ids 1 and 2. -/
def exTwoPending : TaskState :=
  ⟨[⟨1, "a", some "2024-01-05", "Pending", "medium"⟩,
    ⟨2, "b", some "2024-01-06", "Pending", "medium"⟩], 3⟩

/-- A store holding one task whose description is "Milkshake". -/
def exMilk : TaskState :=
  ⟨[⟨1, "Milkshake", some "2024-01-05", "Pending", "medium"⟩], 2⟩

/-- A store holding tasks of the three priorities, inserted low, high, medium. -/
def exThreePrio : TaskState :=
  ⟨[⟨1, "l", none, "Pending", "low"⟩, ⟨2, "h", none, "Pending", "high"⟩,
    ⟨3, "m", none, "Pending", "medium"⟩], 4⟩

/-! ### Theorems -/

/-- If any element of the id list fails to parse, the whole comprehension
raises. -/
theorem parseAll_eq_none {ids : List String} {s : String} (hs : s ∈ ids)
    (h : parsePyInt s = none) : parseAll ids = none := by
  induction ids with
  | nil => cases hs
  | cons a rest ih =>
    rcases List.mem_cons.mp hs with h1 | h2
    · subst h1
      simp [parseAll, h]
    · cases ha : parsePyInt a <;> simp [parseAll, ha, ih h2]

/-- C1: if any id in an update call is non-numeric, the whole batch is
rejected before the database is touched: the store is returned unchanged
(no record, including ones named by valid ids in the same call, is
modified) and the rejection is reported. -/
theorem update_nonnumeric_rejects_batch (st : TaskState) (ids : List String)
    (args : UpdateArgs) (h : ∃ s, s ∈ ids ∧ parsePyInt s = none) :
    updateTask st ids args = (st, BatchReport.invalidIds) := by
  rcases h with ⟨s, hs, hn⟩
  simp [updateTask, parseAll_eq_none hs hn]

/-- C1 witness: `update(["1","abc"], description="x")` on a store holding
id 1 leaves the store unchanged and reports rejection. -/
theorem update_nonnumeric_rejects_batch_w :
    updateTask exOnePending ["1", "abc"] ⟨some "x", none, none, none⟩ =
      (exOnePending, BatchReport.invalidIds) :=
  update_nonnumeric_rejects_batch exOnePending ["1", "abc"]
    ⟨some "x", none, none, none⟩ ⟨"abc", by decide, by decide⟩

/-- C5 evidence: `update(["1","2"], status="1")` with ids 1 and 2 both
present sets id 1 to Pending but id 2 to Completed, because the loop
reassigns its `status` variable after the first present row. -/
theorem update_status_one_leak :
    (updateTask exTwoPending ["1", "2"] ⟨none, some "1", none, none⟩).1.tasks.map
        Task.status = ["Pending", "Completed"] := by
  decide

/-- A row never matches `id = i` after `DELETE FROM tasks WHERE id = i`. -/
theorem present_removeId_self (st : TaskState) (i : Int) :
    present i (removeId st i) = false := by
  simp [present, removeId, List.any_eq_true, List.mem_filter]

/-- C10: in one delete call listing the same existing id twice, the first
occurrence deletes the record and the second is reported missing: the
per-id existence check runs against the state left by earlier ids of the
same batch. -/
theorem delete_dup_second_missing (st : TaskState) (s : String) (i : Int)
    (hp : parsePyInt s = some i) (hpres : present i st = true) :
    deleteTask st [s, s] =
      (removeId st i, BatchReport.ok [Outcome.deleted i, Outcome.missing i]) := by
  simp [deleteTask, parseAll, hp, delGo, hpres, present_removeId_self]

/-- C10 witness: `delete(["1","1"])` on a store holding id 1. -/
theorem delete_dup_second_missing_w :
    deleteTask exOnePending ["1", "1"] =
      (removeId exOnePending 1, BatchReport.ok [Outcome.deleted 1, Outcome.missing 1]) :=
  delete_dup_second_missing exOnePending "1" 1 (by decide) (by decide)

/-- The update loop never changes the sequence value. -/
theorem updGo_nextId (args : UpdateArgs) :
    ∀ (tids : List Int) (st : TaskState) (stat : Option String)
      (p : TaskState × List Outcome),
      updGo args st stat tids = some p → p.1.nextId = st.nextId := by
  intro tids
  induction tids with
  | nil =>
    intro st stat p h
    simp only [updGo, Option.some_inj] at h
    rw [← h]
  | cons i rest ih =>
    intro st stat p h
    simp only [updGo] at h
    by_cases hp : present i st = true
    · rw [if_pos hp] at h
      by_cases hc : (truthy args.priority && !prioOk args.priority) = true
      · rw [if_pos hc] at h
        cases h
      · rw [if_neg hc] at h
        rcases Option.map_eq_some'.mp h with ⟨q, hq, hpq⟩
        have h2 := ih (mapWhere st i (applyIter args stat))
          (if truthy stat then some (statusWritten stat) else stat) q hq
        rw [← hpq, h2]
        rfl
    · rw [if_neg hp] at h
      rcases Option.map_eq_some'.mp h with ⟨q, hq, hpq⟩
      rw [← hpq]
      exact ih _ _ q hq

/-- The delete loop never changes the sequence value. -/
theorem delGo_nextId : ∀ (tids : List Int) (st : TaskState),
    (delGo st tids).1.nextId = st.nextId := by
  intro tids
  induction tids with
  | nil => intro st; rfl
  | cons i rest ih =>
    intro st
    by_cases hp : present i st = true
    · simp [delGo, hp, ih, removeId]
    · simp [delGo, hp, ih]

/-- A successful insert advances the sequence value by one. -/
theorem addTask_success_nextId (st : TaskState) (d : String) (dl : Option String)
    (pr s : String) (h : (addTask st d dl pr s).2 = true) :
    (addTask st d dl pr s).1.nextId = st.nextId + 1 := by
  simp only [addTask] at h ⊢
  split_ifs at h ⊢ <;> simp_all

/-- No operation ever decreases the sequence value. -/
theorem stepOp_nextId_le (st : TaskState) (op : Op) :
    st.nextId ≤ (stepOp st op).nextId := by
  cases op with
  | add d dl p s =>
    simp only [stepOp, addTask]
    split_ifs <;> simp
  | update ids args =>
    simp only [stepOp, updateTask]
    rcases hpa : parseAll ids with _ | tids
    · simp [hpa]
    · rcases hu : updGo args st args.status tids with _ | p
      · simp [hpa, hu]
      · simp only [hpa, hu]
        exact le_of_eq (updGo_nextId args tids st args.status p hu).symm
  | delete ids =>
    simp only [stepOp, deleteTask]
    rcases hpa : parseAll ids with _ | tids
    · simp [hpa]
    · simp only [hpa]
      exact le_of_eq (delGo_nextId tids st).symm

/-- An id assigned by an operation is the current sequence value, and the
sequence then strictly advances. -/
theorem assignedBy_mem (st : TaskState) (op : Op) (a : Int)
    (h : a ∈ assignedBy st op) :
    a = st.nextId ∧ st.nextId < (stepOp st op).nextId := by
  cases op with
  | add d dl p s =>
    simp only [assignedBy] at h
    by_cases hs : (addTask st d dl p s).2 = true
    · rw [if_pos hs] at h
      simp at h
      subst h
      refine ⟨rfl, ?_⟩
      show st.nextId < (addTask st d dl p s).1.nextId
      rw [addTask_success_nextId st d dl p s hs]
      omega
    · rw [if_neg hs] at h
      cases h
  | update ids args => cases h
  | delete ids => cases h

/-- At most one id is assigned per operation. -/
theorem assignedBy_nodup (st : TaskState) (op : Op) : (assignedBy st op).Nodup := by
  cases op with
  | add d dl p s =>
    simp only [assignedBy]
    split_ifs <;> simp
  | update ids args => simp [assignedBy]
  | delete ids => simp [assignedBy]

/-- Every id assigned from a state is at least that state's sequence value,
and the assigned ids of any operation sequence are pairwise distinct. -/
theorem assignedIds_bound_nodup : ∀ (ops : List Op) (st : TaskState),
    (∀ a, a ∈ assignedIds st ops → st.nextId ≤ a) ∧
      (assignedIds st ops).Nodup := by
  intro ops
  induction ops with
  | nil => intro st; exact ⟨by simp [assignedIds], by simp [assignedIds]⟩
  | cons op rest ih =>
    intro st
    obtain ⟨ihb, ihn⟩ := ih (stepOp st op)
    constructor
    · intro a ha
      rcases List.mem_append.mp (by simpa [assignedIds] using ha) with h1 | h2
      · exact le_of_eq (assignedBy_mem st op a h1).1.symm
      · exact le_trans (stepOp_nextId_le st op) (ihb a h2)
    · simp only [assignedIds]
      rw [List.nodup_append]
      refine ⟨assignedBy_nodup st op, ihn, ?_⟩
      intro a h1 h2
      obtain ⟨ha, hlt⟩ := assignedBy_mem st op a h1
      have hge := ihb a h2
      omega

/-- C8: across every sequence of store operations starting from a fresh
database, the ids assigned by successful adds are pairwise distinct: an id
is never reassigned, even after the record holding it is deleted. -/
theorem assigned_ids_nodup (ops : List Op) : (assignedIds initState ops).Nodup :=
  (assignedIds_bound_nodup ops initState).2

/-- C9: a record whose deadline is NULL is never returned by `due_soon_tasks`,
whatever the current time: `deadline <= cutoff` is NULL for it. -/
theorem due_soon_skips_null_deadline (st : TaskState) (now : DateTime) (t : Task)
    (h : t ∈ (dueSoonTasks st now).2) : t.deadline ≠ none := by
  intro hnone
  simp [dueSoonTasks, List.mem_filter] at h
  rcases h with ⟨-, hpred, -⟩
  rw [hnone] at hpred
  simp at hpred

/-- C9 witness: a Pending task with a set deadline selected by
`due_soon_tasks` indeed has a non-NULL deadline. -/
theorem due_soon_skips_null_deadline_w :
    (⟨1, "a", some "2024-01-05", "Pending", "medium"⟩ : Task).deadline ≠ none :=
  due_soon_skips_null_deadline exOnePending ⟨2024, 1, 4, 0, 0, 0⟩ _ (by decide)

/-- A field whose argument is absent or empty is not written. -/
theorem fieldVal_not_truthy (arg : Option String) (old : String)
    (h : truthy arg = false) : fieldVal arg old = old := by
  cases arg with
  | none => rfl
  | some s =>
    simp only [truthy, Bool.not_eq_false'] at h
    simp [fieldVal, h]

/-- A deadline whose argument is absent or empty is not written. -/
theorem fieldValO_not_truthy (arg : Option String) (old : Option String)
    (h : truthy arg = false) : fieldValO arg old = old := by
  cases arg with
  | none => rfl
  | some s =>
    simp only [truthy, Bool.not_eq_false'] at h
    simp [fieldValO, h]

/-- C6: an update call on a single existing id changes only the supplied
fields: every record of the store keeps its id, and keeps its description,
status, priority and deadline whenever the corresponding argument is absent
or empty. -/
theorem update_frame_unsupplied (st : TaskState) (s : String) (i : Int)
    (args : UpdateArgs) (hp : parsePyInt s = some i) (hpres : present i st = true) :
    List.Forall₂ (fun t' t : Task =>
        t'.id = t.id ∧
        (truthy args.description = false → t'.description = t.description) ∧
        (truthy args.status = false → t'.status = t.status) ∧
        (truthy args.priority = false → t'.priority = t.priority) ∧
        (truthy args.deadline = false → t'.deadline = t.deadline))
      (updateTask st [s] args).1.tasks st.tasks := by
  have hparse : parseAll [s] = some [i] := by simp [parseAll, hp]
  by_cases hc : (truthy args.priority && !prioOk args.priority) = true
  · have hres : updateTask st [s] args = (st, BatchReport.crashed) := by
      simp [updateTask, hparse, updGo, hpres, hc]
    rw [hres]
    exact List.forall₂_same.mpr
      (fun t _ => ⟨rfl, fun _ => rfl, fun _ => rfl, fun _ => rfl, fun _ => rfl⟩)
  · have hres : (updateTask st [s] args).1 = mapWhere st i (applyIter args args.status) := by
      simp [updateTask, hparse, updGo, hpres, hc]
    rw [hres]
    simp only [mapWhere]
    rw [List.forall₂_map_left_iff]
    refine List.forall₂_same.mpr (fun t _ => ?_)
    by_cases hid : (t.id == i) = true
    · simp only [hid, if_pos]
      refine ⟨rfl, ?_, ?_, ?_, ?_⟩
      · intro htr
        exact fieldVal_not_truthy _ _ htr
      · intro htr
        simp [applyIter, htr]
      · intro htr
        exact fieldVal_not_truthy _ _ htr
      · intro htr
        exact fieldValO_not_truthy _ _ htr
    · simp only [hid]
      exact ⟨rfl, fun _ => rfl, fun _ => rfl, fun _ => rfl, fun _ => rfl⟩

/-- C6 witness: updating only the description of the task with id 1 keeps
every other field of every record. -/
theorem update_frame_unsupplied_w :
    List.Forall₂ (fun t' t : Task =>
        t'.id = t.id ∧
        (truthy (some "x") = false → t'.description = t.description) ∧
        (truthy none = false → t'.status = t.status) ∧
        (truthy none = false → t'.priority = t.priority) ∧
        (truthy none = false → t'.deadline = t.deadline))
      (updateTask exOnePending ["1"] ⟨some "x", none, none, none⟩).1.tasks
      exOnePending.tasks :=
  update_frame_unsupplied exOnePending "1" 1 ⟨some "x", none, none, none⟩
    (by decide) (by decide)

/-- Writing the same field value twice is the same as writing it once. -/
theorem fieldVal_idem (arg : Option String) (old : String) :
    fieldVal arg (fieldVal arg old) = fieldVal arg old := by
  cases arg with
  | none => rfl
  | some s => by_cases hs : (s == "") = true <;> simp [fieldVal, hs]

/-- Writing the same deadline twice is the same as writing it once. -/
theorem fieldValO_idem (arg : Option String) (old : Option String) :
    fieldValO arg (fieldValO arg old) = fieldValO arg old := by
  cases arg with
  | none => rfl
  | some s => by_cases hs : (s == "") = true <;> simp [fieldValO, hs]

/-- Applying the same update twice to a row is the same as applying it once. -/
theorem applySpec_idem (args : UpdateArgs) (t : Task) :
    applySpec args (applySpec args t) = applySpec args t := by
  cases htr : truthy args.status <;>
    simp [applySpec, fieldVal_idem, fieldValO_idem, htr]

/-- As long as the threaded `status` variable is the caller's argument or the
already-mapped value "Completed", and the caller did not pass "1", one loop
iteration applies exactly `applySpec`. -/
theorem applyIter_eq_applySpec (args : UpdateArgs) (stat : Option String)
    (hinv : stat = args.status ∨ (truthy args.status = true ∧ stat = some "Completed"))
    (hne : args.status ≠ some "1") :
    applyIter args stat = applySpec args := by
  funext t
  rcases hinv with h | ⟨htr, h⟩
  · subst h
    simp [applyIter, applySpec, statusWritten, hne]
  · subst h
    simp [applyIter, applySpec, statusWritten, htr,
      show truthy (some "Completed") = true from rfl]

/-- Rewriting rows in place never changes which ids are present, provided
the rewrite keeps ids (as every `UPDATE` of this program does). -/
theorem present_mapWhere (st : TaskState) (i j : Int) (f : Task → Task)
    (hid : ∀ t, (f t).id = t.id) :
    present j (mapWhere st i f) = present j st := by
  simp only [present, mapWhere, List.any_map]
  congr 1
  funext t
  by_cases h : t.id = i <;> simp [h, hid]

/-- An update keeps a row's id. -/
theorem applySpec_keeps_id (args : UpdateArgs) (t : Task) :
    (applySpec args t).id = t.id := rfl

/-- Updating a row for one id then conditionally for the ids of the rest of
the batch is the same as one conditional update for the whole batch. -/
theorem applySpec_twice_aux (args : UpdateArgs) (i : Int) (rest : List Int)
    (t : Task) :
    (fun u : Task => if rest.contains u.id then applySpec args u else u)
        (if t.id == i then applySpec args t else t) =
      (if (i :: rest).contains t.id then applySpec args t else t) := by
  by_cases hid : (t.id == i) = true
  · rw [if_pos hid]
    simp only [applySpec_keeps_id, List.contains_cons, hid, Bool.true_or, if_true]
    by_cases hrest : rest.contains t.id = true
    · rw [if_pos hrest]
      exact applySpec_idem args t
    · rw [if_neg hrest]
  · rw [if_neg hid]
    simp only [List.contains_cons, Bool.not_eq_true] at hid ⊢
    rw [hid, Bool.false_or]

/-- Full characterization of the update loop on already-parsed ids (for a
supplied status other than "1"): it completes without an exception, each id
is handled independently against the initial table (update never adds or
removes rows, so presence is stable), present ids get the supplied fields,
and the outcomes are reported in input order. -/
theorem updGo_characterization (args : UpdateArgs)
    (hpr : truthy args.priority = true → prioOk args.priority = true)
    (hne : args.status ≠ some "1") :
    ∀ (tids : List Int) (st : TaskState) (stat : Option String),
      (stat = args.status ∨ (truthy args.status = true ∧ stat = some "Completed")) →
      updGo args st stat tids =
        some (⟨st.tasks.map
                (fun t => if tids.contains t.id then applySpec args t else t),
               st.nextId⟩,
              tids.map (fun i =>
                if present i st then Outcome.updated i else Outcome.missing i)) := by
  intro tids
  induction tids with
  | nil =>
    intro st stat hinv
    simp [updGo]
  | cons i rest ih =>
    intro st stat hinv
    have hstep : (if truthy stat then some (statusWritten stat) else stat) = args.status ∨
        (truthy args.status = true ∧
          (if truthy stat then some (statusWritten stat) else stat) = some "Completed") := by
      rcases hinv with h | ⟨htr, h⟩
      · subst h
        cases hts : truthy args.status
        · left
          simp [hts]
        · right
          refine ⟨rfl, ?_⟩
          simp [hts, statusWritten, hne]
      · subst h
        right
        refine ⟨htr, ?_⟩
        simp [truthy, statusWritten]
    by_cases hp : present i st = true
    · have hcrash : (truthy args.priority && !prioOk args.priority) = false := by
        cases htp : truthy args.priority
        · simp
        · simp [hpr htp]
      rw [updGo, if_pos hp, if_neg (by simp [hcrash]),
        applyIter_eq_applySpec args stat hinv hne,
        ih (mapWhere st i (applySpec args)) _ hstep]
      simp only [Option.map_some']
      have htasks : (mapWhere st i (applySpec args)).tasks.map
          (fun t => if rest.contains t.id then applySpec args t else t) =
          st.tasks.map
            (fun t => if (i :: rest).contains t.id then applySpec args t else t) := by
        simp only [mapWhere, List.map_map]
        exact List.map_congr_left (fun t _ => applySpec_twice_aux args i rest t)
      have hpres2 : ∀ j : Int, present j (mapWhere st i (applySpec args)) = present j st :=
        fun j => present_mapWhere st i j (applySpec args) (fun t => rfl)
      refine congrArg some (Prod.ext ?_ ?_)
      · exact congrArg (fun l => TaskState.mk l st.nextId) htasks
      · show Outcome.updated i :: _ = _
        rw [List.map_cons, hp]
        simp only [if_true]
        refine congrArg₂ List.cons rfl (List.map_congr_left (fun j _ => ?_))
        rw [hpres2 j]
    · have hnotmem : ∀ t ∈ st.tasks, (t.id == i) = false := by
        intro t ht
        by_contra hcon
        have : present i st = true := by
          simp only [present, List.any_eq_true]
          exact ⟨t, ht, by simpa using hcon⟩
        exact hp this
      rw [updGo, if_neg (by simp [hp]), ih st stat hinv]
      simp only [Option.map_some']
      refine congrArg some (Prod.ext ?_ ?_)
      · simp only [Prod.fst]
        refine congrArg (fun l => TaskState.mk l st.nextId)
          (List.map_congr_left (fun t ht => ?_))
        rw [List.contains_cons]
        simp [hnotmem t ht]
      · simp [hp]

/-- C3: when every id of an update call parses, the batch completes with no
exception, handling each id independently in input order: a missing id is
skipped and reported, every present id gets the supplied fields applied
(absent and empty fields kept), and rows named by no id are untouched.
Stated for a supplied status other than "1" and an in-range supplied
priority; the "1" status value is settled separately as a defect. -/
theorem update_numeric_per_id (st : TaskState) (ids : List String)
    (args : UpdateArgs) (tids : List Int) (hp : parseAll ids = some tids)
    (hpr : truthy args.priority = true → prioOk args.priority = true)
    (hne : args.status ≠ some "1") :
    updateTask st ids args =
      (⟨st.tasks.map (fun t => if tids.contains t.id then applySpec args t else t),
        st.nextId⟩,
       BatchReport.ok (tids.map (fun i =>
         if present i st then Outcome.updated i else Outcome.missing i))) := by
  simp only [updateTask, hp]
  rw [updGo_characterization args hpr hne tids st args.status (Or.inl rfl)]

/-- C3 witness: `update(["1","999"], status="2")` with id 1 present and 999
absent completes, sets id 1's status (to Completed) and reports 999 missing. -/
theorem update_numeric_per_id_w :
    updateTask exOnePending ["1", "999"] ⟨none, some "2", none, none⟩ =
      (⟨exOnePending.tasks.map (fun t =>
          if [(1 : Int), 999].contains t.id then
            applySpec ⟨none, some "2", none, none⟩ t
          else t),
        exOnePending.nextId⟩,
       BatchReport.ok ([(1 : Int), 999].map (fun i =>
         if present i exOnePending then Outcome.updated i else Outcome.missing i))) :=
  update_numeric_per_id exOnePending ["1", "999"] ⟨none, some "2", none, none⟩
    [1, 999] (by decide) (by decide) (by decide)

/-- SQLite's NULLs-first ascending order on nullable integers is transitive. -/
theorem optNatLe_trans : ∀ x y z : Option Nat,
    optNatLe x y = true → optNatLe y z = true → optNatLe x z = true := by
  intro x y z
  cases x <;> cases y <;> cases z <;> simp [optNatLe] <;> omega

/-- SQLite's NULLs-first ascending order on nullable integers is total. -/
theorem optNatLe_total : ∀ x y : Option Nat,
    (optNatLe x y || optNatLe y x) = true := by
  intro x y
  cases x <;> cases y <;> simp [optNatLe] <;> omega

/-- C7: listing with `orderBy="priority"` returns all records (none when the
table is empty), ordered by the fixed rank high before medium before low,
whatever the insertion order; stated for stores whose priorities satisfy
the schema CHECK constraint. -/
theorem view_priority_order (st : TaskState)
    (hv : ∀ t, t ∈ st.tasks →
      t.priority = "high" ∨ t.priority = "medium" ∨ t.priority = "low") :
    (viewTasks st (some "priority") = none → st.tasks = []) ∧
    ∀ l, viewTasks st (some "priority") = some l →
      l.Perm st.tasks ∧
        l.Pairwise (fun a b => rankSpec a.priority ≤ rankSpec b.priority) := by
  have hperm : (st.tasks.mergeSort
      (fun a b => optNatLe (prioRank a.priority) (prioRank b.priority))).Perm st.tasks :=
    List.mergeSort_perm st.tasks _
  have hsorted : (st.tasks.mergeSort
      (fun a b => optNatLe (prioRank a.priority) (prioRank b.priority))).Pairwise
      (fun a b => optNatLe (prioRank a.priority) (prioRank b.priority) = true) :=
    by
      apply List.sorted_mergeSort
      · intro a b c h1 h2
        exact optNatLe_trans _ _ _ h1 h2
      · intro a b
        exact optNatLe_total _ _
  have hview : viewTasks st (some "priority") =
      (if (st.tasks.mergeSort
          (fun a b => optNatLe (prioRank a.priority) (prioRank b.priority))).isEmpty then
        none
      else some (st.tasks.mergeSort
        (fun a b => optNatLe (prioRank a.priority) (prioRank b.priority)))) := rfl
  constructor
  · intro hnone
    rw [hview] at hnone
    by_cases he : (st.tasks.mergeSort
        (fun a b => optNatLe (prioRank a.priority) (prioRank b.priority))).isEmpty = true
    · rw [List.isEmpty_iff] at he
      have hlen : st.tasks.length = 0 := by
        rw [← hperm.length_eq, he, List.length_nil]
      exact List.length_eq_zero.mp hlen
    · rw [if_neg he] at hnone
      cases hnone
  · intro l hl
    rw [hview] at hl
    by_cases he : (st.tasks.mergeSort
        (fun a b => optNatLe (prioRank a.priority) (prioRank b.priority))).isEmpty = true
    · rw [if_pos he] at hl
      cases hl
    · rw [if_neg he] at hl
      have hle : (st.tasks.mergeSort
          (fun a b => optNatLe (prioRank a.priority) (prioRank b.priority))) = l :=
        Option.some_inj.mp hl
      subst hle
      refine ⟨hperm, ?_⟩
      refine List.Pairwise.imp_of_mem ?_ hsorted
      intro a b ha hb hab
      have ha2 := hv a (hperm.mem_iff.mp ha)
      have hb2 := hv b (hperm.mem_iff.mp hb)
      rcases ha2 with h | h | h <;> rcases hb2 with h2 | h2 | h2 <;>
        simp [h, h2, prioRank, optNatLe, rankSpec] at hab ⊢ <;> omega

/-- C7 witness: a store with priorities inserted in the order low, high,
medium still lists high before medium before low. -/
theorem view_priority_order_w :
    (viewTasks exThreePrio (some "priority") = none → exThreePrio.tasks = []) ∧
    ∀ l, viewTasks exThreePrio (some "priority") = some l →
      l.Perm exThreePrio.tasks ∧
        l.Pairwise (fun a b => rankSpec a.priority ≤ rankSpec b.priority) :=
  view_priority_order exThreePrio (by decide)

/-- A pattern starting with `%` matches a string exactly when some suffix
of the string matches the rest of the pattern. -/
theorem likeMatch_pct (ps : List Char) : ∀ s : List Char,
    (likeMatch ('%' :: ps) s = true ↔
      ∃ s1 s2, s = s1 ++ s2 ∧ likeMatch ps s2 = true) := by
  intro s
  induction s with
  | nil =>
    constructor
    · intro h
      exact ⟨[], [], rfl, by simpa [likeMatch] using h⟩
    · rintro ⟨s1, s2, heq, h2⟩
      rcases List.append_eq_nil.mp heq.symm with ⟨h1, h3⟩
      subst h3
      simpa [likeMatch] using h2
  | cons d ss ih =>
    rw [show likeMatch ('%' :: ps) (d :: ss) =
        (likeMatch ps (d :: ss) || likeMatch ('%' :: ps) ss) from by simp [likeMatch]]
    constructor
    · intro h
      rcases Bool.or_eq_true_iff.mp h with h1 | h2
      · exact ⟨[], d :: ss, rfl, h1⟩
      · rcases ih.mp h2 with ⟨s1, s2, heq, hm⟩
        exact ⟨d :: s1, s2, by rw [heq]; rfl, hm⟩
    · rintro ⟨s1, s2, heq, hm⟩
      cases s1 with
      | nil =>
        simp only [List.nil_append] at heq
        subst heq
        simp [hm]
      | cons a s1' =>
        rcases List.cons_eq_cons.mp heq with ⟨h1, h2⟩
        exact Bool.or_eq_true_iff.mpr (Or.inr (ih.mpr ⟨s1', s2, h2, hm⟩))

/-- A wildcard-free pattern followed by `%` matches a string exactly when
the string starts with the pattern up to ASCII case folding. -/
theorem likeMatch_lit (kw : List Char) (hw : ∀ c ∈ kw, ¬(c = '%' ∨ c = '_')) :
    ∀ s : List Char,
      (likeMatch (kw ++ ['%']) s = true ↔
        ∃ u v : List Char, s = u ++ v ∧ u.map foldC = kw.map foldC) := by
  induction kw with
  | nil =>
    intro s
    simp only [List.nil_append]
    constructor
    · intro _
      exact ⟨[], s, rfl, rfl⟩
    · intro _
      exact (likeMatch_pct [] s).mpr ⟨s, [], by simp, by simp [likeMatch]⟩
  | cons c kw' ih =>
    intro s
    have hc := hw c (List.mem_cons_self c kw')
    have hc1 : c ≠ '%' := fun h => hc (Or.inl h)
    have hc2 : c ≠ '_' := fun h => hc (Or.inr h)
    have ih2 := ih (fun x hx => hw x (List.mem_cons_of_mem c hx))
    cases s with
    | nil =>
      rw [show likeMatch ((c :: kw') ++ ['%']) [] = false from by
        simp [likeMatch, hc1, hc2]]
      constructor
      · intro h
        cases h
      · rintro ⟨u, v, huv, hmap⟩
        rcases List.append_eq_nil.mp huv.symm with ⟨h1, h2⟩
        subst h1
        simp at hmap
    | cons d ss =>
      rw [show likeMatch ((c :: kw') ++ ['%']) (d :: ss) =
          (foldC c == foldC d && likeMatch (kw' ++ ['%']) ss) from by
        simp [likeMatch, hc1, hc2]]
      constructor
      · intro h
        rcases Bool.and_eq_true_iff.mp h with ⟨he, hm⟩
        rcases (ih2 ss).mp hm with ⟨u, v, huv, hmap⟩
        refine ⟨d :: u, v, by rw [huv]; rfl, ?_⟩
        simp only [List.map_cons, hmap]
        rw [beq_iff_eq.mp he]
      · rintro ⟨u, v, huv, hmap⟩
        cases u with
        | nil => simp at hmap
        | cons a u' =>
          rcases List.cons_eq_cons.mp huv with ⟨h1, h2⟩
          subst h1
          simp only [List.map_cons, List.cons_eq_cons] at hmap
          rcases hmap with ⟨hfc, hmap2⟩
          exact Bool.and_eq_true_iff.mpr
            ⟨beq_iff_eq.mpr hfc.symm, (ih2 ss).mpr ⟨u', v, h2, hmap2⟩⟩

/-- `LIKE "%kw%"` for a wildcard-free keyword is exactly the
case-folded-substring test. -/
theorem likeMatch_infix_iff (kw s : List Char)
    (hw : ∀ c ∈ kw, ¬(c = '%' ∨ c = '_')) :
    (likeMatch ('%' :: (kw ++ ['%'])) s = true ↔
      ∃ a b, s.map foldC = a ++ kw.map foldC ++ b) := by
  rw [likeMatch_pct]
  constructor
  · rintro ⟨s1, s2, heq, hm⟩
    rcases (likeMatch_lit kw hw s2).mp hm with ⟨u, v, huv, hmap⟩
    refine ⟨s1.map foldC, v.map foldC, ?_⟩
    rw [heq, huv]
    simp [hmap]
  · rintro ⟨a, b, hab⟩
    have hab2 : s.map foldC = a ++ (kw.map foldC ++ b) := by
      rw [hab, List.append_assoc]
    rcases List.map_eq_append_iff.mp hab2 with ⟨s1, s2, hs, hm1, hm2⟩
    rcases List.map_eq_append_iff.mp hm2 with ⟨u, v, hs2, hmu, hmv⟩
    exact ⟨s1, s2, hs, (likeMatch_lit kw hw s2).mpr ⟨u, v, hs2, hmu⟩⟩

/-- C2 counterexample: on a store holding the single description
"Milkshake", `search("milk")` does not return the records whose description
contains "milk" as a case-sensitive substring: SQLite `LIKE` is
ASCII-case-insensitive, so the Milkshake record is returned although the
case-sensitive filter selects nothing. -/
theorem search_case_sensitive_cex :
    searchTasks exMilk "milk" ≠
      SearchRes.results (exMilk.tasks.filter
        (fun t => containsSub "milk" t.description)) := by
  have hm : likeMatch ['%', 'm', 'i', 'l', 'k', '%']
      ['M', 'i', 'l', 'k', 's', 'h', 'a', 'k', 'e'] = true :=
    (likeMatch_infix_iff "milk".data "Milkshake".data (by decide)).mpr
      ⟨[], "shake".data, by decide⟩
  have hleft : searchTasks exMilk "milk" = SearchRes.results exMilk.tasks := by
    simp [searchTasks, exMilk, List.filter, hm]
  have hright : exMilk.tasks.filter (fun t => containsSub "milk" t.description) = [] := by
    decide
  rw [hleft, hright]
  intro h
  simp [exMilk] at h

/-- C2 amended: for a non-empty keyword free of the `LIKE` wildcards
`%` and `_`, `search` returns exactly the records whose description
contains the keyword as an ASCII-case-insensitive substring (so "milk"
matches "Buy milk", "milk run" and also "Milkshake"). -/
theorem search_ci_substring (st : TaskState) (kw : String)
    (h1 : kw ≠ "") (h2 : noWild kw = true) :
    ∃ l, searchTasks st kw = SearchRes.results l ∧
      ∀ t, t ∈ l ↔ t ∈ st.tasks ∧
        ∃ a b, t.description.data.map foldC = a ++ kw.data.map foldC ++ b := by
  have hne : (kw == "") = false := by simpa using h1
  have hw : ∀ c ∈ kw.data, ¬(c = '%' ∨ c = '_') := by
    intro c hcmem hor
    have hall := List.all_eq_true.mp h2 c hcmem
    rcases hor with h | h <;> subst h <;> simp at hall
  have hsearch : searchTasks st kw = SearchRes.results
      (st.tasks.filter (fun t => likeMatch ('%' :: (kw.data ++ ['%'])) t.description.data)) := by
    simp [searchTasks, hne]
  refine ⟨_, hsearch, ?_⟩
  intro t
  rw [List.mem_filter]
  constructor
  · rintro ⟨ht, hp⟩
    exact ⟨ht, (likeMatch_infix_iff kw.data t.description.data hw).mp hp⟩
  · rintro ⟨ht, hex⟩
    exact ⟨ht, (likeMatch_infix_iff kw.data t.description.data hw).mpr hex⟩

/-- C2 amended witness: searching "milk" over the Milkshake store. -/
theorem search_ci_substring_w :
    ∃ l, searchTasks exMilk "milk" = SearchRes.results l ∧
      ∀ t, t ∈ l ↔ t ∈ exMilk.tasks ∧
        ∃ a b, t.description.data.map foldC = a ++ "milk".data.map foldC ++ b :=
  search_ci_substring exMilk "milk" (by decide) (by decide)

/-- Every digit character is at least '0'. -/
theorem digitCh_ge (k : Nat) : '0' ≤ digitCh k := by
  unfold digitCh
  split <;> decide

/-- Binary text order: equal heads defer to the tails. -/
theorem strLe_cons_self (c : Char) (p s : List Char) (hrec : strLe p s = true) :
    strLe (c :: p) (c :: s) = true := by
  simp [strLe, lt_self_iff_false, hrec]

/-- A '0' is never after any digit character in binary text order. -/
theorem strLe_step_digit (k : Nat) (p s : List Char) (hrec : strLe p s = true) :
    strLe ('0' :: p) (digitCh k :: s) = true := by
  by_cases hlt : '0' < digitCh k
  · simp [strLe, hlt]
  · have heq : digitCh k = '0' := le_antisymm (not_lt.mp hlt) (digitCh_ge k)
    rw [heq]
    exact strLe_cons_self '0' p s hrec

/-- The midnight time text "00:00:00" is `<=` any formatted time text. -/
theorem strLe_zeros (a1 a2 b1 b2 c1 c2 : Nat) :
    strLe ['0', '0', ':', '0', '0', ':', '0', '0']
      [digitCh a1, digitCh a2, ':', digitCh b1, digitCh b2, ':',
        digitCh c1, digitCh c2] = true := by
  apply strLe_step_digit
  apply strLe_step_digit
  apply strLe_cons_self
  apply strLe_step_digit
  apply strLe_step_digit
  apply strLe_cons_self
  apply strLe_step_digit
  apply strLe_step_digit
  rfl

/-- Extending the left operand past an equal-length position with a block
that is `<=` the right operand's tail does not change a binary text
comparison. -/
theorem strLe_append : ∀ (d c : List Char), d.length = c.length →
    ∀ (pad rest : List Char), strLe pad rest = true →
      strLe (d ++ pad) (c ++ rest) = strLe d (c ++ rest) := by
  intro d
  induction d with
  | nil =>
    intro c hlen pad rest hpad
    have hc : c = [] := List.length_eq_zero.mp hlen.symm
    subst hc
    simp [strLe, hpad]
  | cons a as ih =>
    intro c hlen pad rest hpad
    cases c with
    | nil => simp at hlen
    | cons b bs =>
      have hlen2 : as.length = bs.length := by simpa using hlen
      show strLe (a :: (as ++ pad)) (b :: (bs ++ rest)) =
        strLe (a :: as) (b :: (bs ++ rest))
      by_cases h1 : a < b
      · simp [strLe, h1]
      · by_cases h2 : b < a
        · simp [strLe, h1, h2]
        · simp [strLe, h1, h2, ih bs hlen2 pad rest hpad]

/-- On a cutoff produced by `strftime`, the claim-side deadline test
(date-only deadlines compared as that date at midnight) agrees with the raw
SQLite text comparison run by the code. -/
theorem due_pred_eq (d : String) (dt : DateTime) :
    dueSoonSpecPred (some d) (fmtDT dt) = strLe d.data (fmtDT dt).data := by
  simp only [dueSoonSpecPred]
  by_cases hlen : (d.data.length == 10) = true
  · rw [if_pos hlen]
    have hlen2 : d.data.length =
        (pad4 dt.year ++ '-' :: pad2 dt.month ++ '-' :: pad2 dt.day).length := by
      rw [beq_iff_eq.mp hlen]
      rfl
    have hpad : strLe (' ' :: "00:00:00".data)
        (' ' :: (pad2 dt.hour ++ ':' :: pad2 dt.minute ++ ':' :: pad2 dt.second)) = true := by
      apply strLe_cons_self
      exact strLe_zeros (dt.hour / 10) (dt.hour % 10) (dt.minute / 10)
        (dt.minute % 10) (dt.second / 10) (dt.second % 10)
    exact strLe_append d.data
      (pad4 dt.year ++ '-' :: pad2 dt.month ++ '-' :: pad2 dt.day) hlen2
      (' ' :: "00:00:00".data)
      (' ' :: (pad2 dt.hour ++ ':' :: pad2 dt.minute ++ ':' :: pad2 dt.second)) hpad
  · rw [if_neg hlen]

/-- C4: `due_soon_tasks` reports the cutoff `now + 24 hours` in the stored
text format and returns exactly the records that are Pending and whose
deadline text is `<=` that cutoff, a date-only (10-character) deadline
comparing as that date at midnight; Completed records are never returned. -/
theorem due_soon_charact (st : TaskState) (now : DateTime) (t : Task) :
    (t ∈ (dueSoonTasks st now).2 ↔
      t ∈ st.tasks ∧ t.status = "Pending" ∧
        dueSoonSpecPred t.deadline ((dueSoonTasks st now).1) = true) ∧
    (dueSoonTasks st now).1 = fmtDT (addDay now) := by
  refine ⟨?_, rfl⟩
  show t ∈ (dueSoonTasks st now).2 ↔ _
  rw [show (dueSoonTasks st now).2 = st.tasks.filter (fun u =>
    (match u.deadline with
     | some d => strLe d.data (fmtDT (addDay now)).data
     | none => false) && u.status == "Pending") from rfl]
  rw [List.mem_filter]
  constructor
  · rintro ⟨ht, hp⟩
    rcases Bool.and_eq_true_iff.mp hp with ⟨h1, h2⟩
    refine ⟨ht, beq_iff_eq.mp h2, ?_⟩
    cases hd : t.deadline with
    | none =>
      rw [hd] at h1
      simp at h1
    | some d =>
      rw [hd] at h1
      rw [show (dueSoonTasks st now).1 = fmtDT (addDay now) from rfl,
        due_pred_eq d (addDay now)]
      exact h1
  · rintro ⟨ht, hs, hsp⟩
    refine ⟨ht, Bool.and_eq_true_iff.mpr ⟨?_, beq_iff_eq.mpr hs⟩⟩
    rw [show (dueSoonTasks st now).1 = fmtDT (addDay now) from rfl] at hsp
    cases hd : t.deadline with
    | none =>
      rw [hd] at hsp
      simp [dueSoonSpecPred] at hsp
    | some d =>
      rw [hd] at hsp
      rw [due_pred_eq d (addDay now)] at hsp
      exact hsp

end TaskStore
